import Mathlib

/-!
Verification of the morse-go repository: a text → Morse-code PCM audio
synthesizer.  The repository contains two variants of the same program:

* `src/main.go` — pre-generates per-character sample tables
  (`newMorseAudio` / `charSamples`) and assembles the output with `copy`;
* `src/unnamed/part_000` — generates tones inline over a zero-initialized
  buffer guarded by a bounds check.

Shared parts (byte-identical in both files): the Morse table
`morseCodeMap`, the timing computation `calculateMorseTiming`, and the WAV
header writer `writeWavHeader`.

Modelling conventions:

* Go `int` is modelled as `Int` where sign matters (WPM input) and as `Nat`
  for the derived nonnegative quantities (durations, sample counts,
  positions).
* `int(float64(d) * 44100 / 1000)` (src/main.go:65-69, part_000:55-59) is
  modelled as the truncating natural division `d * 44100 / 1000`.  This is
  exact: every duration `d` produced by `calculateMorseTiming` satisfies
  `d ≤ 8400`, so `d * 44100 ≤ 370 440 000` is exactly representable in
  `float64`, the division by 1000 is correctly rounded with error far below
  the distance `1/10` from the nearest integer it could cross, and Go's
  float→int conversion truncates toward zero.
* The tone amplitude `int16(math.Sin(2*math.Pi*freq*k/44100) * 32767)`
  (src/main.go:80, part_000:106) is a float64 computation; it is abstracted
  as a parameter `tone : Int → Nat → Int` (frequency, segment-local sample
  index ↦ amplitude).  Both variants evaluate the syntactically identical
  expression, so one shared parameter models both.
* Go strings are modelled as `List Char` (rune sequences).  The synthesis
  loop is embedded twice:
  - a byte-faithful model (definitions suffixed `B`: `prePass2B`,
    `genPass2B`, `renderSegB`, `generateMorseAudio2B`): the loop index `i`
    is the byte offset of the current rune in the UPPERCASED string (Go
    `range` over `strings.ToUpper(text)`), while the trailing-gap test
    `i < len(text)-1 && text[i+1] != ' '` reads the byte length and a raw
    byte of the ORIGINAL string (`gapCondB`); UTF-8 encoding is
    `utf8Bytes`, and `strings.ToUpper` is modelled per rune by `goToUpper`
    (Go applies `unicode.ToUpper` to each rune).  This model exhibits the
    program's actual behavior when case folding changes a rune's UTF-8
    length (for example ı → I shrinks, ɐ → Ɐ grows);
  - a positional model (`prePass1/2`, `genPass1/2`, `renderSeg`,
    `generateMorseAudio1/2`), where the test is "the next rune exists and
    is not a space" and folding is ASCII `Char.toUpper`.  It coincides
    with the byte-faithful model on ASCII text
    (`generateMorseAudio2B_ascii`), and it is used for the claims where
    the simplification is not load-bearing because the compared passes use
    byte-identical conditions and stay in lockstep on every input (the
    pre-pass/generation agreement and the variant equivalence).
* The Go map literal `morseCodeMap` is modelled as an association list with
  `List.lookup`.
-/

/-- The five duration values (milliseconds) returned by
`calculateMorseTiming` (src/main.go:43-58, part_000:33-48). -/
structure MorseTiming where
  dotDuration : Nat
  dashDuration : Nat
  elementGap : Nat
  charGap : Nat
  wordGap : Nat
deriving DecidableEq, Repr

/-- `calculateMorseTiming` (src/main.go:43-58, part_000:33-48): clamp
non-positive WPM to 20, compute the PARIS time unit `60000 / (wpm * 50)`
with truncating integer division, and return the five durations. -/
def calculateMorseTiming (wpm : Int) : MorseTiming :=
  let w : Nat := if wpm ≤ 0 then 20 else wpm.toNat
  let timeUnit : Nat := 60000 / (w * 50)
  ⟨timeUnit, timeUnit * 3, timeUnit, timeUnit * 3, timeUnit * 7⟩

/-- The five sample counts derived in `newMorseAudio` (src/main.go:65-69)
and `generateMorseAudio` (part_000:55-59). -/
structure SampleCounts where
  dotSamples : Nat
  dashSamples : Nat
  elementGapSamples : Nat
  charGapSamples : Nat
  wordGapSamples : Nat
deriving DecidableEq, Repr

/-- Millisecond → sample-count conversion
`int(float64(d) * sampleRate / 1000)` with `sampleRate = 44100`
(src/main.go:65-69, part_000:55-59); exact as truncating natural division
for all durations this program produces (see file header). -/
def msToSamples (ms : Nat) : Nat := ms * 44100 / 1000

/-- The duration→sample-count block shared by both variants
(src/main.go:62-69, part_000:52-59). -/
def sampleCounts (wpm : Int) : SampleCounts :=
  let t := calculateMorseTiming wpm
  ⟨msToSamples t.dotDuration, msToSamples t.dashDuration,
   msToSamples t.elementGap, msToSamples t.charGap, msToSamples t.wordGap⟩

/-- C1: for every WPM > 0 the five durations satisfy
dash = 3×dot, element gap = 1×dot, character gap = 3×dot,
word gap = 7×dot (src/main.go:51-55). -/
theorem calculateMorseTiming_ratios (wpm : Int) (h : 0 < wpm) :
    (calculateMorseTiming wpm).dashDuration
        = 3 * (calculateMorseTiming wpm).dotDuration ∧
    (calculateMorseTiming wpm).elementGap
        = 1 * (calculateMorseTiming wpm).dotDuration ∧
    (calculateMorseTiming wpm).charGap
        = 3 * (calculateMorseTiming wpm).dotDuration ∧
    (calculateMorseTiming wpm).wordGap
        = 7 * (calculateMorseTiming wpm).dotDuration := by
  simp only [calculateMorseTiming]
  omega

/-- Witness for C1 at WPM = 25. -/
theorem calculateMorseTiming_ratios_witness :
    (0 : Int) < 25 ∧
    ((calculateMorseTiming 25).dashDuration
        = 3 * (calculateMorseTiming 25).dotDuration ∧
     (calculateMorseTiming 25).elementGap
        = 1 * (calculateMorseTiming 25).dotDuration ∧
     (calculateMorseTiming 25).charGap
        = 3 * (calculateMorseTiming 25).dotDuration ∧
     (calculateMorseTiming 25).wordGap
        = 7 * (calculateMorseTiming 25).dotDuration) :=
  ⟨by decide, calculateMorseTiming_ratios 25 (by decide)⟩

/-- C3: for WPM ≤ 0 the default 20 is substituted before computing, so the
whole timing result equals the WPM = 20 result (src/main.go:44-46). -/
theorem calculateMorseTiming_clamp (wpm : Int) (h : wpm ≤ 0) :
    calculateMorseTiming wpm = calculateMorseTiming 20 := by
  simp [calculateMorseTiming, h]

/-- Witness for C3 at WPM = -7. -/
theorem calculateMorseTiming_clamp_witness :
    (-7 : Int) ≤ 0 ∧ calculateMorseTiming (-7) = calculateMorseTiming 20 :=
  ⟨by decide, calculateMorseTiming_clamp (-7) (by decide)⟩

/-- C2: each millisecond duration is converted to samples by truncating
`duration * 44100 / 1000`, uniformly for all five durations
(src/main.go:65-69), and for WPM = 20 the base unit is 60 ms and the
conversion yields dot = 2646, dash = 7938, element gap = 2646,
character gap = 7938 (word gap = 18522) samples. -/
theorem sampleCounts_spec :
    (∀ wpm : Int,
      sampleCounts wpm =
        ⟨(calculateMorseTiming wpm).dotDuration * 44100 / 1000,
         (calculateMorseTiming wpm).dashDuration * 44100 / 1000,
         (calculateMorseTiming wpm).elementGap * 44100 / 1000,
         (calculateMorseTiming wpm).charGap * 44100 / 1000,
         (calculateMorseTiming wpm).wordGap * 44100 / 1000⟩) ∧
    (calculateMorseTiming 20).dotDuration = 60 ∧
    sampleCounts 20 = ⟨2646, 7938, 2646, 7938, 18522⟩ :=
  ⟨fun _ => rfl, by decide, by decide⟩

/-- The Morse code table `morseCodeMap` (src/main.go:21-30, part_000:21-30),
modelled as an association list with the entries in source order. -/
def morseTable : List (Char × String) :=
  [('A', ".-"), ('B', "-..."), ('C', "-.-."), ('D', "-.."), ('E', "."),
   ('F', "..-."), ('G', "--."), ('H', "...."), ('I', ".."), ('J', ".---"),
   ('K', "-.-"), ('L', ".-.."), ('M', "--"), ('N', "-."), ('O', "---"),
   ('P', ".--."), ('Q', "--.-"), ('R', ".-."), ('S', "..."), ('T', "-"),
   ('U', "..-"), ('V', "...-"), ('W', ".--"), ('X', "-..-"), ('Y', "-.--"),
   ('Z', "--.."),
   ('0', "-----"), ('1', ".----"), ('2', "..---"), ('3', "...--"),
   ('4', "....-"), ('5', "....."), ('6', "-...."), ('7', "--..."),
   ('8', "---.."), ('9', "----."),
   ('/', "-..-."), ('?', "..--.."), ('.', ".-.-.-"), (',', "--..--")]

/-- Map access `morseCodeMap[char]` with its `ok` flag, modelled as
association-list lookup. -/
def morseLookup (c : Char) : Option String := morseTable.lookup c

/-- A zero-amplitude buffer (`make([]int16, n)` in Go zero-initializes). -/
def silence (n : Nat) : List Int := List.replicate n 0

/-- A tone segment of `n` samples: sample `k` (segment-local, 0-indexed) has
amplitude `tone k`, where `tone` abstracts
`int16(math.Sin(2*math.Pi*freq*k/44100) * 32767)`
(src/main.go:79-84, part_000:104-108). -/
def toneList (tone : Nat → Int) (n : Nat) : List Int :=
  (List.range n).map tone

/-- Positional model of the trailing-gap test
`i < len(text)-1 && text[i+1] != ' '` (src/main.go:127,149,
part_000:80,118): there is a next rune and it is not a space.  Faithful
for ASCII text; `gapCondB` below is the byte-faithful version. -/
def nextIsAudible : List Char → Bool
  | [] => false
  | c :: _ => c != ' '

/-- `nextIsAudible` generalized with a lookahead character standing for the
text that follows the current fragment (used to state positional facts
about fragments of a larger text). -/
def nextIsAudibleO : List Char → Option Char → Bool
  | c :: _, _ => c != ' '
  | [], some c => c != ' '
  | [], none => false

/-- The per-character sample table entry built in `newMorseAudio`
(src/main.go:88-101): for each mark append a dot or dash tone, and after
every mark but the last an element-gap silence. -/
def buildCharSamples (tone : Nat → Int) (P : SampleCounts) : List Char → List Int
  | [] => []
  | e :: rest =>
      (if e = '.' then toneList tone P.dotSamples
       else if e = '-' then toneList tone P.dashSamples else [])
      ++ (if rest.isEmpty then [] else silence P.elementGapSamples)
      ++ buildCharSamples tone P rest

/-- The per-character sample count of the part_000 pre-pass
(part_000:70-79): dot/dash counts per mark plus an element gap after every
mark but the last. -/
def elementCount (P : SampleCounts) : List Char → Nat
  | [] => 0
  | e :: rest =>
      (if e = '.' then P.dotSamples else if e = '-' then P.dashSamples else 0)
      + (if rest.isEmpty then 0 else P.elementGapSamples)
      + elementCount P rest

/-- The pre-pass of src/main.go:117-131 in the positional model: total
sample count via the lengths of the pre-generated per-character tables
(byte-faithful counterpart: `prePass2B`; the two variants use identical
conditions, so the positional simplification cancels out in the
variant-equivalence and pass-agreement claims). -/
def prePass1 (tone : Nat → Int) (P : SampleCounts) : List Char → Nat
  | [] => 0
  | c :: rest =>
      (if c.toUpper = ' ' then P.wordGapSamples
       else
         match morseLookup c.toUpper with
         | some s =>
             (buildCharSamples tone P s.toList).length
               + (if nextIsAudible rest then P.charGapSamples else 0)
         | none => 0)
      + prePass1 tone P rest

/-- The pre-pass of part_000:61-84 in the positional model: total sample
count via per-element duration sums (byte-faithful counterpart:
`prePass2B`). -/
def prePass2 (P : SampleCounts) : List Char → Nat
  | [] => 0
  | c :: rest =>
      (if c.toUpper = ' ' then P.wordGapSamples
       else
         match morseLookup c.toUpper with
         | some s =>
             elementCount P s.toList
               + (if nextIsAudible rest then P.charGapSamples else 0)
         | none => 0)
      + prePass2 P rest

/-- Go `copy(samples[pos:], l)`: write the elements of `l` at consecutive
positions starting at `pos`, silently stopping at the end of the buffer
(`List.set` is a no-op out of bounds, matching `copy` truncation). -/
def copyAt : List Int → Nat → List Int → List Int
  | buf, _, [] => buf
  | buf, pos, v :: vs => copyAt (buf.set pos v) (pos + 1) vs

/-- The generation pass of src/main.go:134-154 in the positional model:
copy pre-generated character tables and gap buffers into the pre-sized
output, tracking the write position. -/
def genPass1 (tone : Nat → Int) (P : SampleCounts) :
    List Int → Nat → List Char → List Int × Nat
  | buf, pos, [] => (buf, pos)
  | buf, pos, c :: rest =>
      if c.toUpper = ' ' then
        genPass1 tone P (copyAt buf pos (silence P.wordGapSamples))
          (pos + P.wordGapSamples) rest
      else
        match morseLookup c.toUpper with
        | some s =>
            let cs := buildCharSamples tone P s.toList
            let buf1 := copyAt buf pos cs
            let pos1 := pos + cs.length
            if nextIsAudible rest then
              genPass1 tone P (copyAt buf1 pos1 (silence P.charGapSamples))
                (pos1 + P.charGapSamples) rest
            else genPass1 tone P buf1 pos1 rest
        | none => genPass1 tone P buf pos rest

/-- `generateMorseAudio` of src/main.go:114-157 (table-based variant):
pre-pass for the total, zero buffer of that size, generation pass, return
the samples and the total.  `tone` abstracts the sine amplitude at a given
frequency (see file header). -/
def generateMorseAudio1 (tone : Int → Nat → Int) (text : List Char)
    (wpm freq : Int) : List Int × Nat :=
  let P := sampleCounts wpm
  let total := prePass1 (tone freq) P text
  let r := genPass1 (tone freq) P (List.replicate total 0) 0 text
  (r.1, total)

/-- One guarded sample write of part_000:104-108, iterated over a list of
amplitudes: `if currentSample+k < len(samples) { samples[currentSample+k] = … }`.
The boolean records whether every attempted write was in bounds
(instrumentation of the guard; it does not affect the buffer). -/
def copyAtChecked : List Int → Nat → List Int → List Int × Bool
  | buf, _, [] => (buf, true)
  | buf, pos, v :: vs =>
      let ok : Bool := decide (pos < buf.length)
      let buf1 := if pos < buf.length then buf.set pos v else buf
      let r := copyAtChecked buf1 (pos + 1) vs
      (r.1, ok && r.2)

/-- The inner element loop of part_000:97-115: for each mark write a
dot-length or dash-length tone (any mark other than a dash gets the dot
duration), advance past it, and advance past an element gap after every
mark but the last. -/
def writeElements (tone : Nat → Int) (P : SampleCounts) :
    List Int → Nat → List Char → List Int × Nat × Bool
  | buf, pos, [] => (buf, pos, true)
  | buf, pos, e :: rest =>
      let dur := if e = '-' then P.dashSamples else P.dotSamples
      let w := copyAtChecked buf pos (toneList tone dur)
      let pos1 := pos + dur + (if rest.isEmpty then 0 else P.elementGapSamples)
      let r := writeElements tone P w.1 pos1 rest
      (r.1, r.2.1, w.2 && r.2.2)

/-- The generation pass of part_000:87-122 in the positional model: spaces
and gaps only advance the position (the zero-initialized buffer supplies
the silence); known characters write their tones in place (byte-faithful
counterpart: `genPass2B`). -/
def genPass2 (tone : Nat → Int) (P : SampleCounts) :
    List Int → Nat → List Char → List Int × Nat × Bool
  | buf, pos, [] => (buf, pos, true)
  | buf, pos, c :: rest =>
      if c.toUpper = ' ' then
        genPass2 tone P buf (pos + P.wordGapSamples) rest
      else
        match morseLookup c.toUpper with
        | some s =>
            let w := writeElements tone P buf pos s.toList
            let pos1 := w.2.1 + (if nextIsAudible rest then P.charGapSamples else 0)
            let r := genPass2 tone P w.1 pos1 rest
            (r.1, r.2.1, w.2.2 && r.2.2)
        | none => genPass2 tone P buf pos rest

/-- `generateMorseAudio` of part_000:51-125 (inline variant), projected to
the values the Go function returns: the sample slice and the total. -/
def generateMorseAudio2 (tone : Int → Nat → Int) (text : List Char)
    (wpm freq : Int) : List Int × Nat :=
  let P := sampleCounts wpm
  let total := prePass2 P text
  let r := genPass2 (tone freq) P (List.replicate total 0) 0 text
  (r.1, total)

/-- Functional description of the synthesized waveform in the positional
model, with a lookahead character standing for what follows the fragment
in the whole text (`none` at top level): concatenation, in input order, of
word gaps for spaces, tone-and-element-gap sequences for known characters
(nothing for unknown ones), and a character gap after a known character
followed by a further non-space character.  `renderSegB` is the
byte-faithful counterpart. -/
def renderSeg (tone : Nat → Int) (P : SampleCounts) :
    List Char → Option Char → List Int
  | [], _ => []
  | c :: rest, after =>
      (if c.toUpper = ' ' then silence P.wordGapSamples
       else
         match morseLookup c.toUpper with
         | some s =>
             buildCharSamples tone P s.toList
               ++ (if nextIsAudibleO rest after then silence P.charGapSamples
                   else [])
         | none => [])
      ++ renderSeg tone P rest after

/-- Overwrite the region of `buf` starting at `pos` with `l`. -/
def overwrite (buf : List Int) (pos : Nat) (l : List Int) : List Int :=
  buf.take pos ++ l ++ buf.drop (pos + l.length)

theorem length_silence (n : Nat) : (silence n).length = n := by
  simp [silence]

theorem length_toneList (tone : Nat → Int) (n : Nat) :
    (toneList tone n).length = n := by
  simp [toneList]

theorem overwrite_nil (buf : List Int) (pos : Nat) :
    overwrite buf pos [] = buf := by
  simp [overwrite]

theorem length_overwrite (buf : List Int) (pos : Nat) (l : List Int)
    (h : pos + l.length ≤ buf.length) :
    (overwrite buf pos l).length = buf.length := by
  simp only [overwrite, List.length_append, List.length_take, List.length_drop]
  omega

theorem overwrite_take (buf : List Int) (pos : Nat) (l : List Int)
    (h : pos + l.length ≤ buf.length) :
    (overwrite buf pos l).take (pos + l.length) = buf.take pos ++ l := by
  have hlen : (buf.take pos ++ l).length = pos + l.length := by
    simp only [List.length_append, List.length_take]
    omega
  calc (overwrite buf pos l).take (pos + l.length)
      = ((buf.take pos ++ l) ++ buf.drop (pos + l.length)).take
          (pos + l.length) := by
        simp [overwrite, List.append_assoc]
    _ = buf.take pos ++ l := List.take_left' hlen

theorem overwrite_drop (buf : List Int) (pos : Nat) (l : List Int)
    (h : pos + l.length ≤ buf.length) :
    (overwrite buf pos l).drop (pos + l.length) = buf.drop (pos + l.length) := by
  have hlen : (buf.take pos ++ l).length = pos + l.length := by
    simp only [List.length_append, List.length_take]
    omega
  calc (overwrite buf pos l).drop (pos + l.length)
      = ((buf.take pos ++ l) ++ buf.drop (pos + l.length)).drop
          (pos + l.length) := by
        simp [overwrite, List.append_assoc]
    _ = buf.drop (pos + l.length) := List.drop_left' hlen

theorem overwrite_overwrite (buf : List Int) (pos : Nat) (l1 l2 : List Int)
    (h : pos + l1.length + l2.length ≤ buf.length) :
    overwrite (overwrite buf pos l1) (pos + l1.length) l2
      = overwrite buf pos (l1 ++ l2) := by
  have h1 : pos + l1.length ≤ buf.length := by omega
  have hd : (overwrite buf pos l1).drop (pos + l1.length + l2.length)
      = buf.drop (pos + l1.length + l2.length) := by
    rw [← List.drop_drop, overwrite_drop buf pos l1 h1, List.drop_drop]
  show (overwrite buf pos l1).take (pos + l1.length) ++ l2 ++
      (overwrite buf pos l1).drop (pos + l1.length + l2.length)
      = overwrite buf pos (l1 ++ l2)
  rw [overwrite_take buf pos l1 h1, hd]
  simp [overwrite, List.append_assoc, Nat.add_assoc]

theorem copyAt_eq_overwrite (l : List Int) :
    ∀ (buf : List Int) (pos : Nat), pos + l.length ≤ buf.length →
      copyAt buf pos l = overwrite buf pos l := by
  induction l with
  | nil =>
      intro buf pos h
      simp [copyAt, overwrite_nil]
  | cons v vs ih =>
      intro buf pos h
      have hpos : pos < buf.length := by
        simp only [List.length_cons] at h
        omega
      have hset : buf.set pos v = buf.take pos ++ [v] ++ buf.drop (pos + 1) := by
        rw [List.set_eq_take_cons_drop v hpos]
        simp
      have hb : (buf.set pos v).length = buf.length := by simp
      calc copyAt buf pos (v :: vs)
          = copyAt (buf.set pos v) (pos + 1) vs := rfl
        _ = overwrite (buf.set pos v) (pos + 1) vs := by
            apply ih
            simp only [hb]
            simp only [List.length_cons] at h
            omega
        _ = overwrite buf pos (v :: vs) := by
            rw [hset]
            have := overwrite_overwrite buf pos [v] vs
              (by simp at h ⊢; omega)
            simp only [List.length_singleton] at this
            rw [show overwrite buf pos [v]
                  = buf.take pos ++ [v] ++ buf.drop (pos + 1) from rfl] at this
            rw [this]
            simp

/-- The region of `n` samples of `buf` starting at `pos` is all zeros. -/
def zeroRegion (buf : List Int) (pos n : Nat) : Prop :=
  (buf.drop pos).take n = silence n

theorem overwrite_silence_of_zeroRegion (buf : List Int) (pos n : Nat)
    (h : zeroRegion buf pos n) : overwrite buf pos (silence n) = buf := by
  have h1 : (buf.drop pos).take n = silence n := h
  have h2 := List.take_append_drop n (buf.drop pos)
  rw [h1, List.drop_drop] at h2
  show buf.take pos ++ silence n ++ buf.drop (pos + (silence n).length) = buf
  rw [length_silence, List.append_assoc, h2, List.take_append_drop]

theorem zeroRegion_split (buf : List Int) (pos a b : Nat)
    (h : zeroRegion buf pos (a + b)) :
    zeroRegion buf pos a ∧ zeroRegion buf (pos + a) b := by
  constructor
  · show (buf.drop pos).take a = silence a
    have : (buf.drop pos).take a = ((buf.drop pos).take (a + b)).take a := by
      rw [List.take_take]
      congr 1
      omega
    rw [this, h]
    simp [silence]
  · show (buf.drop (pos + a)).take b = silence b
    rw [← List.drop_drop, List.take_drop, h]
    simp [silence]

theorem zeroRegion_after_overwrite (buf : List Int) (pos : Nat) (l : List Int)
    (j n : Nat) (h : pos + l.length ≤ buf.length)
    (hz : zeroRegion buf (pos + l.length + j) n) :
    zeroRegion (overwrite buf pos l) (pos + l.length + j) n := by
  show ((overwrite buf pos l).drop (pos + l.length + j)).take n = silence n
  rw [← List.drop_drop, overwrite_drop buf pos l h, List.drop_drop]
  exact hz

theorem copyAtChecked_eq (l : List Int) :
    ∀ (buf : List Int) (pos : Nat), pos + l.length ≤ buf.length →
      copyAtChecked buf pos l = (copyAt buf pos l, true) := by
  induction l with
  | nil => intro buf pos h; rfl
  | cons v vs ih =>
      intro buf pos h
      have hpos : pos < buf.length := by
        simp only [List.length_cons] at h
        omega
      show (let ok : Bool := decide (pos < buf.length)
            let buf1 := if pos < buf.length then buf.set pos v else buf
            let r := copyAtChecked buf1 (pos + 1) vs
            (r.1, ok && r.2)) = (copyAt buf pos (v :: vs), true)
      simp only [hpos, if_pos, decide_eq_true_eq]
      rw [ih (buf.set pos v) (pos + 1)
        (by simp only [List.length_set]; simp only [List.length_cons] at h; omega)]
      simp [copyAt, hpos]

theorem nextIsAudibleO_none (rest : List Char) :
    nextIsAudibleO rest none = nextIsAudible rest := by
  cases rest <;> rfl

theorem length_buildCharSamples (tone : Nat → Int) (P : SampleCounts) :
    ∀ m : List Char, (buildCharSamples tone P m).length = elementCount P m := by
  intro m
  induction m with
  | nil => rfl
  | cons e rest ih =>
      simp only [buildCharSamples, elementCount, List.length_append, ih]
      congr 2
      · by_cases h1 : e = '.'
        · simp [h1, length_toneList]
        · by_cases h2 : e = '-' <;> simp [h1, h2, length_toneList]
      · by_cases h3 : rest.isEmpty <;> simp [h3, length_silence]

theorem length_renderSeg_none (tone : Nat → Int) (P : SampleCounts) :
    ∀ text : List Char,
      (renderSeg tone P text none).length = prePass2 P text := by
  intro text
  induction text with
  | nil => rfl
  | cons c rest ih =>
      simp only [renderSeg, prePass2, List.length_append, nextIsAudibleO_none, ih]
      congr 1
      by_cases hsp : c.toUpper = ' '
      · simp [hsp, length_silence]
      · simp only [hsp, if_neg, ite_false]
        cases hml : morseLookup c.toUpper with
        | none => simp
        | some s =>
            simp only [List.length_append, length_buildCharSamples]
            congr 1
            cases nextIsAudible rest <;> simp [length_silence]

theorem prePass1_eq_prePass2 (tone : Nat → Int) (P : SampleCounts) :
    ∀ text : List Char, prePass1 tone P text = prePass2 P text := by
  intro text
  induction text with
  | nil => rfl
  | cons c rest ih =>
      simp only [prePass1, prePass2, ih]
      congr 1
      by_cases hsp : c.toUpper = ' '
      · simp [hsp]
      · simp only [hsp, if_neg, ite_false]
        cases hml : morseLookup c.toUpper with
        | none => simp
        | some s => simp [length_buildCharSamples]

theorem pass_compose (buf : List Int) (pos : Nat) (l1 R : List Int)
    (f : List Int → Nat → List Int × Nat)
    (hf : ∀ buf2 pos2, pos2 + R.length ≤ buf2.length →
      f buf2 pos2 = (overwrite buf2 pos2 R, pos2 + R.length))
    (h : pos + l1.length + R.length ≤ buf.length) :
    f (overwrite buf pos l1) (pos + l1.length)
      = (overwrite buf pos (l1 ++ R), pos + (l1 ++ R).length) := by
  rw [hf (overwrite buf pos l1) (pos + l1.length)
    (by rw [length_overwrite buf pos l1 (by omega)]; omega)]
  rw [overwrite_overwrite buf pos l1 R h]
  simp [List.length_append, Nat.add_assoc]

theorem genPass1_eq (tone : Nat → Int) (P : SampleCounts) :
    ∀ (text : List Char) (buf : List Int) (pos : Nat),
      pos + (renderSeg tone P text none).length ≤ buf.length →
      genPass1 tone P buf pos text
        = (overwrite buf pos (renderSeg tone P text none),
           pos + (renderSeg tone P text none).length) := by
  intro text
  induction text with
  | nil =>
      intro buf pos h
      simp [genPass1, renderSeg, overwrite_nil]
  | cons c rest ih =>
      intro buf pos h
      by_cases hsp : c.toUpper = ' '
      · -- space: copy the word gap, then the rest
        have hren : renderSeg tone P (c :: rest) none
            = silence P.wordGapSamples ++ renderSeg tone P rest none := by
          simp [renderSeg, hsp]
        rw [hren] at h ⊢
        have hb1 : pos + (silence P.wordGapSamples).length ≤ buf.length := by
          simp only [List.length_append] at h
          omega
        have hgoal : genPass1 tone P buf pos (c :: rest)
            = genPass1 tone P (copyAt buf pos (silence P.wordGapSamples))
                (pos + P.wordGapSamples) rest := by
          simp [genPass1, hsp]
        rw [hgoal, copyAt_eq_overwrite _ _ _ hb1,
          show pos + P.wordGapSamples
              = pos + (silence P.wordGapSamples).length by
            rw [length_silence]]
        exact pass_compose buf pos (silence P.wordGapSamples)
          (renderSeg tone P rest none) (fun b p => genPass1 tone P b p rest)
          (fun b p hb => ih b p hb)
          (by simp only [List.length_append] at h; omega)
      · cases hml : morseLookup c.toUpper with
        | none =>
            have hren : renderSeg tone P (c :: rest) none
                = renderSeg tone P rest none := by
              simp [renderSeg, hsp, hml]
            rw [hren] at h ⊢
            have hgoal : genPass1 tone P buf pos (c :: rest)
                = genPass1 tone P buf pos rest := by
              simp [genPass1, hsp, hml]
            rw [hgoal]
            exact ih buf pos h
        | some s =>
            have hren : renderSeg tone P (c :: rest) none
                = (buildCharSamples tone P s.toList
                    ++ (if nextIsAudible rest then silence P.charGapSamples
                        else []))
                  ++ renderSeg tone P rest none := by
              simp [renderSeg, hsp, hml, nextIsAudibleO_none]
            rw [hren] at h ⊢
            by_cases hng : nextIsAudible rest
            · -- known character followed by an audible one: samples, then a
              -- character gap, then the rest
              simp only [if_pos hng] at h ⊢
              have hcs : pos + (buildCharSamples tone P s.toList).length
                  ≤ buf.length := by
                simp only [List.length_append, length_silence] at h
                omega
              have hgoal : genPass1 tone P buf pos (c :: rest)
                  = genPass1 tone P
                      (copyAt (copyAt buf pos (buildCharSamples tone P s.toList))
                        (pos + (buildCharSamples tone P s.toList).length)
                        (silence P.charGapSamples))
                      (pos + (buildCharSamples tone P s.toList).length
                        + P.charGapSamples) rest := by
                simp [genPass1, hsp, hml, hng]
              rw [hgoal, copyAt_eq_overwrite _ _ _ hcs]
              rw [copyAt_eq_overwrite _ _ _ (by
                rw [length_overwrite _ _ _ hcs]
                simp only [List.length_append, length_silence] at h ⊢
                omega)]
              rw [overwrite_overwrite _ _ _ _ (by
                simp only [List.length_append, length_silence] at h ⊢
                omega)]
              rw [show pos + (buildCharSamples tone P s.toList).length
                    + P.charGapSamples
                  = pos + (buildCharSamples tone P s.toList
                      ++ silence P.charGapSamples).length by
                simp [List.length_append, length_silence, Nat.add_assoc]]
              exact pass_compose buf pos
                (buildCharSamples tone P s.toList ++ silence P.charGapSamples)
                (renderSeg tone P rest none)
                (fun b p => genPass1 tone P b p rest)
                (fun b p hb => ih b p hb)
                (by simp only [List.length_append, length_silence] at h ⊢; omega)
            · -- known character with no trailing gap
              simp only [if_neg hng, List.append_nil] at h ⊢
              have hcs : pos + (buildCharSamples tone P s.toList).length
                  ≤ buf.length := by
                simp only [List.length_append] at h
                omega
              have hgoal : genPass1 tone P buf pos (c :: rest)
                  = genPass1 tone P
                      (copyAt buf pos (buildCharSamples tone P s.toList))
                      (pos + (buildCharSamples tone P s.toList).length) rest := by
                simp [genPass1, hsp, hml, hng]
              rw [hgoal, copyAt_eq_overwrite _ _ _ hcs]
              exact pass_compose buf pos
                (buildCharSamples tone P s.toList)
                (renderSeg tone P rest none)
                (fun b p => genPass1 tone P b p rest)
                (fun b p hb => ih b p hb)
                (by simp only [List.length_append] at h ⊢; omega)

theorem zeroRegion_overwrite_past (buf : List Int) (pos : Nat) (l : List Int)
    (k n : Nat) (hbound : pos + l.length ≤ buf.length)
    (hk : pos + l.length ≤ k) (hz : zeroRegion buf k n) :
    zeroRegion (overwrite buf pos l) k n := by
  have hk2 : k = pos + l.length + (k - (pos + l.length)) := by omega
  rw [hk2] at hz ⊢
  exact zeroRegion_after_overwrite buf pos l _ n hbound hz

theorem writeElements_eq (tone : Nat → Int) (P : SampleCounts) :
    ∀ (m : List Char) (buf : List Int) (pos : Nat),
      (∀ e ∈ m, e = '.' ∨ e = '-') →
      pos + (buildCharSamples tone P m).length ≤ buf.length →
      zeroRegion buf pos (buildCharSamples tone P m).length →
      writeElements tone P buf pos m
        = (overwrite buf pos (buildCharSamples tone P m),
           pos + (buildCharSamples tone P m).length, true) := by
  intro m
  induction m with
  | nil =>
      intro buf pos _ _ _
      simp [writeElements, buildCharSamples, overwrite_nil]
  | cons e rest ih =>
      intro buf pos hwf hb hz
      have he : e = '.' ∨ e = '-' := hwf e (by simp)
      have hwf' : ∀ x ∈ rest, x = '.' ∨ x = '-' := fun x hx => hwf x (by simp [hx])
      have hhead : (if e = '.' then toneList tone P.dotSamples
            else if e = '-' then toneList tone P.dashSamples else [])
          = toneList tone (if e = '-' then P.dashSamples else P.dotSamples) := by
        rcases he with h1 | h1 <;> simp [h1]
      have hB : buildCharSamples tone P (e :: rest)
          = toneList tone (if e = '-' then P.dashSamples else P.dotSamples)
            ++ ((if rest.isEmpty then [] else silence P.elementGapSamples)
              ++ buildCharSamples tone P rest) := by
        simp only [buildCharSamples, hhead, List.append_assoc]
      have hg : (if rest.isEmpty then ([] : List Int)
            else silence P.elementGapSamples).length
          = (if rest.isEmpty then 0 else P.elementGapSamples) := by
        by_cases hre : rest.isEmpty <;> simp [hre, length_silence]
      rw [hB] at hb hz ⊢
      simp only [List.length_append, length_toneList, hg] at hb hz
      -- the tone write
      have hbtl : pos + (toneList tone
          (if e = '-' then P.dashSamples else P.dotSamples)).length
          ≤ buf.length := by
        simp only [length_toneList]
        omega
      have hw := copyAtChecked_eq (toneList tone
        (if e = '-' then P.dashSamples else P.dotSamples)) buf pos hbtl
      rw [copyAt_eq_overwrite _ _ _ hbtl] at hw
      have hlen1 : (overwrite buf pos (toneList tone
          (if e = '-' then P.dashSamples else P.dotSamples))).length
          = buf.length := length_overwrite _ _ _ hbtl
      -- zero regions beyond the tone write
      obtain ⟨z1, z2⟩ := zeroRegion_split buf pos _ _ hz
      obtain ⟨z3, z4⟩ := zeroRegion_split buf _ _ _ z2
      have z3' := zeroRegion_overwrite_past buf pos
        (toneList tone (if e = '-' then P.dashSamples else P.dotSamples))
        (pos + (if e = '-' then P.dashSamples else P.dotSamples))
        (if rest.isEmpty then 0 else P.elementGapSamples) hbtl
        (by simp only [length_toneList]; omega) z3
      have z4' := zeroRegion_overwrite_past buf pos
        (toneList tone (if e = '-' then P.dashSamples else P.dotSamples))
        (pos + (if e = '-' then P.dashSamples else P.dotSamples)
          + (if rest.isEmpty then 0 else P.elementGapSamples))
        (buildCharSamples tone P rest).length hbtl
        (by simp only [length_toneList]; omega) z4
      -- writing the element gap over zeros is the identity
      have hgapid : overwrite
            (overwrite buf pos (toneList tone
              (if e = '-' then P.dashSamples else P.dotSamples)))
            (pos + (if e = '-' then P.dashSamples else P.dotSamples))
            (if rest.isEmpty then [] else silence P.elementGapSamples)
          = overwrite buf pos (toneList tone
              (if e = '-' then P.dashSamples else P.dotSamples)) := by
        by_cases hre : rest.isEmpty
        · simp only [if_pos hre]
          exact overwrite_nil _ _
        · simp only [if_neg hre]
          apply overwrite_silence_of_zeroRegion
          have := z3'
          simp only [if_neg hre] at this
          exact this
      -- the recursive call
      have ihres := ih (overwrite buf pos (toneList tone
          (if e = '-' then P.dashSamples else P.dotSamples)))
        (pos + (if e = '-' then P.dashSamples else P.dotSamples)
          + (if rest.isEmpty then 0 else P.elementGapSamples))
        hwf'
        (by rw [hlen1]; omega)
        z4'
      -- assembling the buffer equality
      have hchain : overwrite (overwrite buf pos (toneList tone
            (if e = '-' then P.dashSamples else P.dotSamples)))
            (pos + (if e = '-' then P.dashSamples else P.dotSamples)
              + (if rest.isEmpty then 0 else P.elementGapSamples))
            (buildCharSamples tone P rest)
          = overwrite buf pos (toneList tone
              (if e = '-' then P.dashSamples else P.dotSamples)
              ++ ((if rest.isEmpty then [] else silence P.elementGapSamples)
                ++ buildCharSamples tone P rest)) := by
        rw [← overwrite_overwrite buf pos _ _
          (by simp only [length_toneList, List.length_append, hg]; omega)]
        rw [← overwrite_overwrite
          (overwrite buf pos (toneList tone
            (if e = '-' then P.dashSamples else P.dotSamples)))
          (pos + (toneList tone
            (if e = '-' then P.dashSamples else P.dotSamples)).length) _ _
          (by rw [hlen1]; simp only [length_toneList, hg]; omega)]
        simp only [length_toneList, hg, hgapid]
      show ((writeElements tone P (copyAtChecked buf pos (toneList tone
            (if e = '-' then P.dashSamples else P.dotSamples))).1
          (pos + (if e = '-' then P.dashSamples else P.dotSamples)
            + (if rest.isEmpty then 0 else P.elementGapSamples)) rest).1,
          (writeElements tone P (copyAtChecked buf pos (toneList tone
            (if e = '-' then P.dashSamples else P.dotSamples))).1
          (pos + (if e = '-' then P.dashSamples else P.dotSamples)
            + (if rest.isEmpty then 0 else P.elementGapSamples)) rest).2.1,
          (copyAtChecked buf pos (toneList tone
            (if e = '-' then P.dashSamples else P.dotSamples))).2
          && (writeElements tone P (copyAtChecked buf pos (toneList tone
            (if e = '-' then P.dashSamples else P.dotSamples))).1
          (pos + (if e = '-' then P.dashSamples else P.dotSamples)
            + (if rest.isEmpty then 0 else P.elementGapSamples)) rest).2.2)
        = _
      rw [hw]
      simp only
      rw [ihres, hchain]
      simp only [Prod.mk.injEq, List.length_append, length_toneList, hg,
        Bool.true_and, and_true, true_and]
      omega

theorem lookup_mem {α β : Type} [BEq α] [LawfulBEq α] :
    ∀ (l : List (α × β)) (k : α) (v : β), l.lookup k = some v → (k, v) ∈ l := by
  intro l
  induction l with
  | nil => intro k v h; simp [List.lookup] at h
  | cons p t ih =>
      intro k v h
      obtain ⟨a, b⟩ := p
      simp only [List.lookup] at h
      by_cases hk : k == a
      · rw [hk] at h
        simp only [Option.some.injEq] at h
        subst h
        have : k = a := eq_of_beq hk
        subst this
        exact List.mem_cons_self _ _
      · rw [Bool.not_eq_true] at hk
        rw [hk] at h
        exact List.mem_cons_of_mem _ (ih k v h)

/-- Every entry of the Morse table consists only of dot and dash marks
(the invariant the part_000 generation pass relies on: its pre-pass counts
nothing for any other mark while its write loop would emit a dot-length
tone). -/
theorem morseTable_wf :
    ∀ p ∈ morseTable, ∀ e ∈ p.2.toList, e = '.' ∨ e = '-' := by
  decide

theorem morseLookup_wf (c : Char) (s : String) (h : morseLookup c = some s) :
    ∀ e ∈ s.toList, e = '.' ∨ e = '-' :=
  morseTable_wf (c, s) (lookup_mem morseTable c s h)

theorem pass2_compose (buf : List Int) (pos : Nat) (l1 R : List Int)
    (f : List Int → Nat → List Int × Nat × Bool)
    (hf : ∀ buf2 pos2, pos2 + R.length ≤ buf2.length →
      zeroRegion buf2 pos2 R.length →
      f buf2 pos2 = (overwrite buf2 pos2 R, pos2 + R.length, true))
    (h : pos + l1.length + R.length ≤ buf.length)
    (hz : zeroRegion buf (pos + l1.length) R.length) :
    f (overwrite buf pos l1) (pos + l1.length)
      = (overwrite buf pos (l1 ++ R), pos + (l1 ++ R).length, true) := by
  rw [hf (overwrite buf pos l1) (pos + l1.length)
    (by rw [length_overwrite buf pos l1 (by omega)]; omega)
    (zeroRegion_overwrite_past buf pos l1 _ _ (by omega) (by omega) hz)]
  rw [overwrite_overwrite buf pos l1 R h]
  simp [List.length_append, Nat.add_assoc]

theorem genPass2_eq (tone : Nat → Int) (P : SampleCounts) :
    ∀ (text : List Char) (buf : List Int) (pos : Nat),
      pos + (renderSeg tone P text none).length ≤ buf.length →
      zeroRegion buf pos (renderSeg tone P text none).length →
      genPass2 tone P buf pos text
        = (overwrite buf pos (renderSeg tone P text none),
           pos + (renderSeg tone P text none).length, true) := by
  intro text
  induction text with
  | nil =>
      intro buf pos h hz
      simp [genPass2, renderSeg, overwrite_nil]
  | cons c rest ih =>
      intro buf pos h hz
      by_cases hsp : c.toUpper = ' '
      · -- space: skip over the word gap; the untouched region is already
        -- silent, so skipping equals writing the silence
        have hren : renderSeg tone P (c :: rest) none
            = silence P.wordGapSamples ++ renderSeg tone P rest none := by
          simp [renderSeg, hsp]
        rw [hren] at h hz ⊢
        simp only [List.length_append, length_silence] at h hz
        obtain ⟨z1, z2⟩ := zeroRegion_split buf pos _ _ hz
        have hbufid : overwrite buf pos (silence P.wordGapSamples) = buf :=
          overwrite_silence_of_zeroRegion buf pos P.wordGapSamples z1
        have hgoal : genPass2 tone P buf pos (c :: rest)
            = genPass2 tone P buf (pos + P.wordGapSamples) rest := by
          simp [genPass2, hsp]
        rw [hgoal,
          show genPass2 tone P buf (pos + P.wordGapSamples) rest
              = (fun b p => genPass2 tone P b p rest)
                  (overwrite buf pos (silence P.wordGapSamples))
                  (pos + (silence P.wordGapSamples).length) by
            rw [hbufid, length_silence]]
        refine pass2_compose buf pos (silence P.wordGapSamples)
          (renderSeg tone P rest none) (fun b p => genPass2 tone P b p rest)
          (fun b p hb hzz => ih b p hb hzz)
          (by simp only [length_silence]; omega) ?_
        rw [length_silence]
        exact z2
      · cases hml : morseLookup c.toUpper with
        | none =>
            have hren : renderSeg tone P (c :: rest) none
                = renderSeg tone P rest none := by
              simp [renderSeg, hsp, hml]
            rw [hren] at h hz ⊢
            have hgoal : genPass2 tone P buf pos (c :: rest)
                = genPass2 tone P buf pos rest := by
              simp [genPass2, hsp, hml]
            rw [hgoal]
            exact ih buf pos h hz
        | some s =>
            have hwf := morseLookup_wf c.toUpper s hml
            have hren : renderSeg tone P (c :: rest) none
                = (buildCharSamples tone P s.toList
                    ++ (if nextIsAudible rest then silence P.charGapSamples
                        else []))
                  ++ renderSeg tone P rest none := by
              simp [renderSeg, hsp, hml, nextIsAudibleO_none]
            rw [hren] at h hz ⊢
            by_cases hng : nextIsAudible rest
            · -- known character followed by an audible one: the tones are
              -- written, the character gap is skipped over zeros
              simp only [if_pos hng] at h hz ⊢
              simp only [List.length_append, length_silence] at h hz
              obtain ⟨z1, z2⟩ := zeroRegion_split buf pos _ _ hz
              obtain ⟨z1a, z1b⟩ := zeroRegion_split buf pos _ _ z1
              have hbB : pos + (buildCharSamples tone P s.toList).length
                  ≤ buf.length := by omega
              have hwres := writeElements_eq tone P s.toList buf pos hwf hbB z1a
              have hz1b := zeroRegion_overwrite_past buf pos
                (buildCharSamples tone P s.toList)
                (pos + (buildCharSamples tone P s.toList).length)
                P.charGapSamples hbB (by omega) z1b
              have hgapid : overwrite
                    (overwrite buf pos (buildCharSamples tone P s.toList))
                    (pos + (buildCharSamples tone P s.toList).length)
                    (silence P.charGapSamples)
                  = overwrite buf pos (buildCharSamples tone P s.toList) := by
                exact overwrite_silence_of_zeroRegion _ _ _ hz1b
              have hcomp := overwrite_overwrite buf pos
                (buildCharSamples tone P s.toList) (silence P.charGapSamples)
                (by simp only [length_silence]; omega)
              rw [show pos + (buildCharSamples tone P s.toList).length
                    = pos + (buildCharSamples tone P s.toList).length from rfl]
                at hcomp
              have hfull : overwrite buf pos (buildCharSamples tone P s.toList
                    ++ silence P.charGapSamples)
                  = overwrite buf pos (buildCharSamples tone P s.toList) := by
                rw [← hcomp, hgapid]
              have ihres := pass2_compose buf pos
                (buildCharSamples tone P s.toList ++ silence P.charGapSamples)
                (renderSeg tone P rest none)
                (fun b p => genPass2 tone P b p rest)
                (fun b p hb hzz => ih b p hb hzz)
                (by simp only [List.length_append, length_silence]; omega)
                (by
                  simp only [List.length_append, length_silence]
                  exact z2)
              simp only [List.length_append, length_silence, hfull,
                ← Nat.add_assoc] at ihres
              simp only [genPass2, if_neg hsp, hml, hwres, if_pos hng,
                List.length_append, length_silence, ← Nat.add_assoc]
              rw [ihres]
              simp
            · -- known character with no trailing gap
              simp only [if_neg hng, List.append_nil] at h hz ⊢
              simp only [List.length_append] at h hz
              obtain ⟨z1, z2⟩ := zeroRegion_split buf pos _ _ hz
              have hbB : pos + (buildCharSamples tone P s.toList).length
                  ≤ buf.length := by omega
              have hwres := writeElements_eq tone P s.toList buf pos hwf hbB z1
              have ihres := pass2_compose buf pos
                (buildCharSamples tone P s.toList)
                (renderSeg tone P rest none)
                (fun b p => genPass2 tone P b p rest)
                (fun b p hb hzz => ih b p hb hzz)
                (by omega) z2
              simp only [List.length_append, ← Nat.add_assoc] at ihres
              simp only [genPass2, if_neg hsp, hml, hwres, if_neg hng,
                Nat.add_zero, List.length_append, ← Nat.add_assoc]
              rw [ihres]
              simp

theorem toNat_ofNat_valid (n : Nat) (h : n.isValidChar) :
    (Char.ofNat n).toNat = n := by
  rw [Char.ofNat, dif_pos h]
  rfl

theorem toNat_toUpper (c : Char) :
    c.toUpper.toNat
      = if 97 ≤ c.toNat ∧ c.toNat ≤ 122 then c.toNat - 32 else c.toNat := by
  show (if c.toNat ≥ 97 ∧ c.toNat ≤ 122 then Char.ofNat (c.toNat - 32)
      else c).toNat = _
  by_cases h : 97 ≤ c.toNat ∧ c.toNat ≤ 122
  · rw [if_pos h, if_pos h, toNat_ofNat_valid _ (Or.inl (by omega))]
  · rw [if_neg h, if_neg h]

theorem char_eq_of_toNat_eq {a b : Char} (h : a.toNat = b.toNat) : a = b := by
  rw [← Char.ofNat_toNat a, ← Char.ofNat_toNat b, h]

theorem toUpper_toUpper (c : Char) : c.toUpper.toUpper = c.toUpper := by
  apply char_eq_of_toNat_eq
  rw [toNat_toUpper, toNat_toUpper]
  by_cases h : 97 ≤ c.toNat ∧ c.toNat ≤ 122
  · simp only [if_pos h]
    rw [if_neg (by omega)]
  · simp only [if_neg h]

theorem toUpper_eq_space_iff (c : Char) : c.toUpper = ' ' ↔ c = ' ' := by
  constructor
  · intro h
    have hn : c.toUpper.toNat = 32 := by rw [h]; rfl
    rw [toNat_toUpper] at hn
    by_cases h2 : 97 ≤ c.toNat ∧ c.toNat ≤ 122
    · rw [if_pos h2] at hn
      omega
    · rw [if_neg h2] at hn
      exact char_eq_of_toNat_eq hn
  · intro h
    subst h
    decide

theorem toUpper_bne_space (c : Char) : (c.toUpper != ' ') = (c != ' ') := by
  by_cases h : c = ' '
  · subst h
    decide
  · have h2 : ¬c.toUpper = ' ' := fun hh => h ((toUpper_eq_space_iff c).mp hh)
    rw [bne_iff_ne.mpr h2, bne_iff_ne.mpr h]

theorem overwrite_full (buf l : List Int) (h : buf.length = l.length) :
    overwrite buf 0 l = l := by
  have hd : buf.drop (0 + l.length) = [] :=
    List.drop_eq_nil_of_le (by omega)
  show buf.take 0 ++ l ++ buf.drop (0 + l.length) = l
  rw [hd]
  simp

theorem zeroRegion_replicate (n m : Nat) (h : m ≤ n) :
    zeroRegion (List.replicate n (0 : Int)) 0 m := by
  show ((List.replicate n (0 : Int)).drop 0).take m = silence m
  simp [silence, Nat.min_eq_left h]

/-- The src/main.go pipeline equals the functional waveform description:
its output samples are `renderSeg … none` and its count is the pre-pass
total. -/
theorem generateMorseAudio1_eq_render (tone : Int → Nat → Int)
    (text : List Char) (wpm freq : Int) :
    generateMorseAudio1 tone text wpm freq
      = (renderSeg (tone freq) (sampleCounts wpm) text none,
         prePass1 (tone freq) (sampleCounts wpm) text) := by
  have htot : prePass1 (tone freq) (sampleCounts wpm) text
      = (renderSeg (tone freq) (sampleCounts wpm) text none).length := by
    rw [prePass1_eq_prePass2, length_renderSeg_none]
  show (let P := sampleCounts wpm
        let total := prePass1 (tone freq) P text
        let r := genPass1 (tone freq) P (List.replicate total 0) 0 text
        (r.1, total)) = _
  simp only
  rw [htot]
  rw [genPass1_eq (tone freq) (sampleCounts wpm) text
    (List.replicate (renderSeg (tone freq) (sampleCounts wpm) text none).length 0)
    0 (by simp)]
  simp only
  rw [overwrite_full _ _ (by simp)]

/-- The part_000 pipeline equals the same functional waveform description. -/
theorem generateMorseAudio2_eq_render (tone : Int → Nat → Int)
    (text : List Char) (wpm freq : Int) :
    generateMorseAudio2 tone text wpm freq
      = (renderSeg (tone freq) (sampleCounts wpm) text none,
         prePass2 (sampleCounts wpm) text) := by
  have htot : prePass2 (sampleCounts wpm) text
      = (renderSeg (tone freq) (sampleCounts wpm) text none).length :=
    (length_renderSeg_none (tone freq) (sampleCounts wpm) text).symm
  show (let P := sampleCounts wpm
        let total := prePass2 P text
        let r := genPass2 (tone freq) P (List.replicate total 0) 0 text
        (r.1, total)) = _
  simp only
  rw [htot]
  rw [genPass2_eq (tone freq) (sampleCounts wpm) text
    (List.replicate (renderSeg (tone freq) (sampleCounts wpm) text none).length 0)
    0 (by simp) (zeroRegion_replicate _ _ (by omega))]
  simp only
  rw [overwrite_full _ _ (by simp)]

/-- C10: the two implementations of synthesis — the table-based variant of
src/main.go and the inline variant of part_000 — return identical sample
sequences and identical sample counts for every (text, WPM, frequency)
input (`tone` ranges over all amplitude functions, hence over all
frequencies). -/
theorem generateMorseAudio_variants_equal (tone : Int → Nat → Int)
    (text : List Char) (wpm freq : Int) :
    generateMorseAudio1 tone text wpm freq
      = generateMorseAudio2 tone text wpm freq := by
  rw [generateMorseAudio1_eq_render, generateMorseAudio2_eq_render,
    prePass1_eq_prePass2]

/-- C7: the pre-pass total equals the samples consumed by the generation
pass: the returned count equals the length of the returned sample list,
the final write position of the part_000 generation pass equals the
pre-pass total, and the bounds guard on its writes never suppresses a
write (the instrumentation flag stays `true`). -/
theorem generateMorseAudio2_passes_agree (tone : Int → Nat → Int)
    (text : List Char) (wpm freq : Int) :
    (generateMorseAudio2 tone text wpm freq).2
        = (generateMorseAudio2 tone text wpm freq).1.length
    ∧ (genPass2 (tone freq) (sampleCounts wpm)
        (List.replicate (prePass2 (sampleCounts wpm) text) 0) 0 text).2.1
        = prePass2 (sampleCounts wpm) text
    ∧ (genPass2 (tone freq) (sampleCounts wpm)
        (List.replicate (prePass2 (sampleCounts wpm) text) 0) 0 text).2.2
        = true := by
  have hrun := genPass2_eq (tone freq) (sampleCounts wpm) text
    (List.replicate (prePass2 (sampleCounts wpm) text) 0) 0
    (by simp [length_renderSeg_none])
    (zeroRegion_replicate _ _ (by rw [length_renderSeg_none]))
  refine ⟨?_, ?_, ?_⟩
  · rw [generateMorseAudio2_eq_render]
    exact (length_renderSeg_none (tone freq) (sampleCounts wpm) text).symm
  · rw [hrun]
    simp [length_renderSeg_none]
  · rw [hrun]

theorem nextIsAudible_map_toUpper (rest : List Char) :
    nextIsAudible (rest.map Char.toUpper) = nextIsAudible rest := by
  cases rest with
  | nil => rfl
  | cons r t => simp [nextIsAudible, toUpper_bne_space]

theorem nextIsAudibleO_map_toUpper (rest : List Char) :
    nextIsAudibleO (rest.map Char.toUpper) none = nextIsAudibleO rest none := by
  cases rest with
  | nil => rfl
  | cons r t => simp [nextIsAudibleO, toUpper_bne_space]

theorem renderSeg_map_toUpper (tone : Nat → Int) (P : SampleCounts) :
    ∀ text : List Char,
      renderSeg tone P (text.map Char.toUpper) none
        = renderSeg tone P text none := by
  intro text
  induction text with
  | nil => rfl
  | cons c rest ih =>
      simp only [List.map_cons, renderSeg, toUpper_toUpper,
        nextIsAudibleO_map_toUpper, ih]

theorem prePass2_map_toUpper (P : SampleCounts) :
    ∀ text : List Char,
      prePass2 P (text.map Char.toUpper) = prePass2 P text := by
  intro text
  induction text with
  | nil => rfl
  | cons c rest ih =>
      simp only [List.map_cons, prePass2, toUpper_toUpper,
        nextIsAudible_map_toUpper, ih]

/-- The character following a fragment: the head of the remaining text, or
the ambient lookahead when the remaining text is empty. -/
def lookAheadChar (ys : List Char) (after : Option Char) : Option Char :=
  match ys with
  | [] => after
  | y :: _ => some y

theorem nextIsAudibleO_append (rest ys : List Char) (after : Option Char) :
    nextIsAudibleO (rest ++ ys) after
      = nextIsAudibleO rest (lookAheadChar ys after) := by
  cases rest <;> cases ys <;> rfl

theorem renderSeg_append (tone : Nat → Int) (P : SampleCounts) :
    ∀ (xs ys : List Char) (after : Option Char),
      renderSeg tone P (xs ++ ys) after
        = renderSeg tone P xs (lookAheadChar ys after)
          ++ renderSeg tone P ys after := by
  intro xs
  induction xs with
  | nil => intro ys after; simp [renderSeg]
  | cons c rest ih =>
      intro ys after
      simp only [List.cons_append, renderSeg, List.append_eq,
        nextIsAudibleO_append, ih, List.append_assoc]

/-- `binary.Write(w, binary.LittleEndian, uint16(n))`: two little-endian
bytes (the Go conversion wraps modulo 2^16; the byte extraction below
realizes that wrap). -/
def u16le (n : Nat) : List Nat := [n % 256, n / 256 % 256]

/-- `binary.Write(w, binary.LittleEndian, uint32(n))`: four little-endian
bytes (byte `i` is bits 8i..8i+7, which realizes the uint32 wrap). -/
def u32le (n : Nat) : List Nat :=
  [n % 256, n / 256 % 256, n / 65536 % 256, n / 16777216 % 256]

/-- `binary.Write(w, binary.LittleEndian, sample)` for an int16 sample:
two little-endian bytes of the two's-complement representation. -/
def i16le (v : Int) : List Nat :=
  [(v % 65536).toNat % 256, (v % 65536).toNat / 256]

/-- `writeWavHeader` (src/main.go:202-221, part_000:170-189): RIFF tag,
uint32 total size `36 + dataSize`, WAVE tag, "fmt " chunk of size 16 with
PCM format 1, 1 channel, the sample rate, byte rate `sampleRate * 2`,
block align 2, 16 bits per sample, then the data tag and uint32 data
size.  The tag byte lists spell "RIFF", "WAVE", "fmt " and "data". -/
def writeWavHeader (dataSize sampleRate : Nat) : List Nat :=
  [82, 73, 70, 70] ++ u32le (36 + dataSize)
    ++ [87, 65, 86, 69]
    ++ [102, 109, 116, 32] ++ u32le 16
    ++ u16le 1
    ++ u16le 1
    ++ u32le sampleRate
    ++ u32le (sampleRate * 2)
    ++ u16le 2
    ++ u16le 16
    ++ [100, 97, 116, 97] ++ u32le dataSize

/-- The byte stream main() builds (src/main.go:172-178): the header called
with `totalSamples*2` and the fixed rate 44100, followed by each sample
written little-endian. -/
def wavFileBytes (samples : List Int) (totalSamples : Nat) : List Nat :=
  writeWavHeader (totalSamples * 2) 44100 ++ (samples.map i16le).flatten

/-- The container layout in the spec's words (§4.3): a 4-byte file-type
tag, a 32-bit little-endian total-size field equal to 36 + data byte
length, a 4-byte format tag, a format sub-chunk of size 16 encoding the
linear-PCM marker 1, channel count 1, sample rate 44100, byte rate
44100 × 2, block alignment 2, bits-per-sample 16, then a data sub-chunk
tag, a 32-bit little-endian data byte length, and the raw little-endian
16-bit samples. -/
def specContainerBytes (samples : List Int) : List Nat :=
  let dataLen := 2 * samples.length
  [82, 73, 70, 70] ++ u32le (36 + dataLen)
    ++ [87, 65, 86, 69]
    ++ [102, 109, 116, 32] ++ u32le 16
    ++ u16le 1 ++ u16le 1 ++ u32le 44100 ++ u32le (44100 * 2)
    ++ u16le 2 ++ u16le 16
    ++ [100, 97, 116, 97] ++ u32le dataLen
    ++ (samples.map i16le).flatten

/-- C8: the container encoder emits exactly the spec's field layout, and
for the empty input string synthesis returns no samples, so the data
length field is 0 and the total-size field holds 36 (bytes 4..7 of the
44-byte output). -/
theorem writeWavHeader_spec :
    (∀ samples : List Int,
      wavFileBytes samples samples.length = specContainerBytes samples)
    ∧ (∀ (tone : Int → Nat → Int) (wpm freq : Int),
        generateMorseAudio2 tone [] wpm freq = ([], 0))
    ∧ wavFileBytes [] 0
        = [82, 73, 70, 70, 36, 0, 0, 0, 87, 65, 86, 69,
           102, 109, 116, 32, 16, 0, 0, 0, 1, 0, 1, 0,
           68, 172, 0, 0, 136, 88, 1, 0, 2, 0, 16, 0,
           100, 97, 116, 97, 0, 0, 0, 0] := by
  refine ⟨?_, ?_, by decide⟩
  · intro samples
    show writeWavHeader (samples.length * 2) 44100
        ++ (samples.map i16le).flatten = _
    rw [show samples.length * 2 = 2 * samples.length by omega]
    simp [writeWavHeader, specContainerBytes, List.append_assoc]
  · intro tone wpm freq
    rw [generateMorseAudio2_eq_render]
    rfl

/-- Per-rune model of Go's `strings.ToUpper` (which applies
`unicode.ToUpper` to every rune): the full ASCII range, plus the
non-ASCII entries of Go's case table that the theorems below exercise
(U+0131 ı → U+0049 I, whose encoding shrinks from 2 bytes to 1, and
U+0250 ɐ → U+2C6F Ɐ, whose encoding grows from 2 bytes to 3).  On other
non-ASCII letters Go's table maps further code points while this model
keeps them fixed; no statement below depends on those, since they are
unknown to the Morse table either way and the byte-offset bookkeeping
uses whatever this function returns. -/
def goToUpper (c : Char) : Char :=
  if c.toNat < 128 then c.toUpper
  else if c = 'ı' then 'I'
  else if c = 'ɐ' then 'Ɐ'
  else c

/-- Standard UTF-8 encoding of a scalar value (Go `utf8.EncodeRune`),
as the list of byte values. -/
def utf8Bytes (c : Char) : List Nat :=
  let n := c.toNat
  if n < 128 then [n]
  else if n < 2048 then [192 + n / 64, 128 + n % 64]
  else if n < 65536 then [224 + n / 4096, 128 + n / 64 % 64, 128 + n % 64]
  else [240 + n / 262144, 128 + n / 4096 % 64, 128 + n / 64 % 64,
        128 + n % 64]

/-- The UTF-8 bytes of a Go string (`text[j]` is `(textBytes t).getD j 0`,
`len(text)` is `(textBytes t).length`). -/
def textBytes (t : List Char) : List Nat :=
  (t.map utf8Bytes).flatten

/-- Byte-faithful trailing-gap test `i < len(text)-1 && text[i+1] != ' '`
(src/main.go:127,149, part_000:80,118): `i` is the byte offset of the
current rune in the UPPERCASED string, but `tb`/`tlen` are the bytes and
byte length of the ORIGINAL string — the index mix the Go code performs.
Under the guard the read byte is in range, so the total `getD` never
falls back to its default. -/
def gapCondB (tb : List Nat) (tlen i : Nat) : Bool :=
  decide (i < tlen - 1) && (tb.getD (i + 1) 0 != 32)

/-- Byte length of the uppercase fold of a fragment: how far the Go range
loop's byte offset advances while crossing it. -/
def upperByteLen : List Char → Nat
  | [] => 0
  | c :: rest => (utf8Bytes (goToUpper c)).length + upperByteLen rest

/-- Byte-faithful pre-pass of part_000:61-84: walk the runes of the
original text, uppercase each (the loop ranges over
`strings.ToUpper(text)`), advance the byte offset `i` by the uppercased
rune's encoded size, and apply the byte-index gap test. -/
def prePass2B (P : SampleCounts) (tb : List Nat) (tlen : Nat) :
    Nat → List Char → Nat
  | _, [] => 0
  | i, c :: rest =>
      (if goToUpper c = ' ' then P.wordGapSamples
       else
         match morseLookup (goToUpper c) with
         | some s =>
             elementCount P s.toList
               + (if gapCondB tb tlen i then P.charGapSamples else 0)
         | none => 0)
      + prePass2B P tb tlen (i + (utf8Bytes (goToUpper c)).length) rest

/-- Byte-faithful generation pass of part_000:87-122 (same write logic as
`genPass2`, with the byte-index gap test and byte-offset threading). -/
def genPass2B (tone : Nat → Int) (P : SampleCounts) (tb : List Nat)
    (tlen : Nat) :
    List Int → Nat → Nat → List Char → List Int × Nat × Bool
  | buf, pos, _, [] => (buf, pos, true)
  | buf, pos, i, c :: rest =>
      if goToUpper c = ' ' then
        genPass2B tone P tb tlen buf (pos + P.wordGapSamples)
          (i + (utf8Bytes (goToUpper c)).length) rest
      else
        match morseLookup (goToUpper c) with
        | some s =>
            let w := writeElements tone P buf pos s.toList
            let pos1 := w.2.1
              + (if gapCondB tb tlen i then P.charGapSamples else 0)
            let r := genPass2B tone P tb tlen w.1 pos1
              (i + (utf8Bytes (goToUpper c)).length) rest
            (r.1, r.2.1, w.2.2 && r.2.2)
        | none => genPass2B tone P tb tlen buf pos
            (i + (utf8Bytes (goToUpper c)).length) rest

/-- Byte-faithful functional waveform description: the contribution of a
rune fragment starting at byte offset `i` of the uppercased string, with
the original string's bytes `tb` and byte length `tlen` fixed.  Unlike the
positional `renderSeg`, the gap condition of each character depends only
on its own byte offset, not on the following runes. -/
def renderSegB (tone : Nat → Int) (P : SampleCounts) (tb : List Nat)
    (tlen : Nat) : Nat → List Char → List Int
  | _, [] => []
  | i, c :: rest =>
      (if goToUpper c = ' ' then silence P.wordGapSamples
       else
         match morseLookup (goToUpper c) with
         | some s =>
             buildCharSamples tone P s.toList
               ++ (if gapCondB tb tlen i then silence P.charGapSamples
                   else [])
         | none => [])
      ++ renderSegB tone P tb tlen (i + (utf8Bytes (goToUpper c)).length) rest

/-- Byte-faithful model of `generateMorseAudio` of part_000:51-125,
projected to the values the Go function returns. -/
def generateMorseAudio2B (tone : Int → Nat → Int) (text : List Char)
    (wpm freq : Int) : List Int × Nat :=
  let P := sampleCounts wpm
  let tb := textBytes text
  let total := prePass2B P tb tb.length 0 text
  let r := genPass2B (tone freq) P tb tb.length (List.replicate total 0)
    0 0 text
  (r.1, total)

theorem length_renderSegB (tone : Nat → Int) (P : SampleCounts)
    (tb : List Nat) (tlen : Nat) :
    ∀ (text : List Char) (i : Nat),
      (renderSegB tone P tb tlen i text).length = prePass2B P tb tlen i text := by
  intro text
  induction text with
  | nil => intro i; rfl
  | cons c rest ih =>
      intro i
      simp only [renderSegB, prePass2B, List.length_append, ih]
      congr 1
      by_cases hsp : goToUpper c = ' '
      · simp [hsp, length_silence]
      · simp only [hsp, if_neg, ite_false]
        cases hml : morseLookup (goToUpper c) with
        | none => simp
        | some s =>
            simp only [List.length_append, length_buildCharSamples]
            congr 1
            cases gapCondB tb tlen i <;> simp [length_silence]

theorem genPass2B_eq (tone : Nat → Int) (P : SampleCounts) (tb : List Nat)
    (tlen : Nat) :
    ∀ (text : List Char) (buf : List Int) (pos i : Nat),
      pos + (renderSegB tone P tb tlen i text).length ≤ buf.length →
      zeroRegion buf pos (renderSegB tone P tb tlen i text).length →
      genPass2B tone P tb tlen buf pos i text
        = (overwrite buf pos (renderSegB tone P tb tlen i text),
           pos + (renderSegB tone P tb tlen i text).length, true) := by
  intro text
  induction text with
  | nil =>
      intro buf pos i h hz
      simp [genPass2B, renderSegB, overwrite_nil]
  | cons c rest ih =>
      intro buf pos i h hz
      by_cases hsp : goToUpper c = ' '
      · have hren : renderSegB tone P tb tlen i (c :: rest)
            = silence P.wordGapSamples
              ++ renderSegB tone P tb tlen
                  (i + (utf8Bytes (goToUpper c)).length) rest := by
          simp [renderSegB, hsp]
        rw [hren] at h hz ⊢
        simp only [List.length_append, length_silence] at h hz
        obtain ⟨z1, z2⟩ := zeroRegion_split buf pos _ _ hz
        have hbufid : overwrite buf pos (silence P.wordGapSamples) = buf :=
          overwrite_silence_of_zeroRegion buf pos P.wordGapSamples z1
        have hgoal : genPass2B tone P tb tlen buf pos i (c :: rest)
            = genPass2B tone P tb tlen buf (pos + P.wordGapSamples)
                (i + (utf8Bytes (goToUpper c)).length) rest := by
          simp [genPass2B, hsp]
        rw [hgoal,
          show genPass2B tone P tb tlen buf (pos + P.wordGapSamples)
                (i + (utf8Bytes (goToUpper c)).length) rest
              = (fun b p => genPass2B tone P tb tlen b p
                  (i + (utf8Bytes (goToUpper c)).length) rest)
                  (overwrite buf pos (silence P.wordGapSamples))
                  (pos + (silence P.wordGapSamples).length) by
            rw [hbufid, length_silence]]
        refine pass2_compose buf pos (silence P.wordGapSamples)
          (renderSegB tone P tb tlen (i + (utf8Bytes (goToUpper c)).length)
            rest)
          (fun b p => genPass2B tone P tb tlen b p
            (i + (utf8Bytes (goToUpper c)).length) rest)
          (fun b p hb hzz => ih b p _ hb hzz)
          (by simp only [length_silence]; omega) ?_
        rw [length_silence]
        exact z2
      · cases hml : morseLookup (goToUpper c) with
        | none =>
            have hren : renderSegB tone P tb tlen i (c :: rest)
                = renderSegB tone P tb tlen
                    (i + (utf8Bytes (goToUpper c)).length) rest := by
              simp [renderSegB, hsp, hml]
            rw [hren] at h hz ⊢
            have hgoal : genPass2B tone P tb tlen buf pos i (c :: rest)
                = genPass2B tone P tb tlen buf pos
                    (i + (utf8Bytes (goToUpper c)).length) rest := by
              simp [genPass2B, hsp, hml]
            rw [hgoal]
            exact ih buf pos _ h hz
        | some s =>
            have hwf := morseLookup_wf (goToUpper c) s hml
            have hren : renderSegB tone P tb tlen i (c :: rest)
                = (buildCharSamples tone P s.toList
                    ++ (if gapCondB tb tlen i then silence P.charGapSamples
                        else []))
                  ++ renderSegB tone P tb tlen
                      (i + (utf8Bytes (goToUpper c)).length) rest := by
              simp [renderSegB, hsp, hml]
            rw [hren] at h hz ⊢
            by_cases hng : gapCondB tb tlen i
            · simp only [if_pos hng] at h hz ⊢
              simp only [List.length_append, length_silence] at h hz
              obtain ⟨z1, z2⟩ := zeroRegion_split buf pos _ _ hz
              obtain ⟨z1a, z1b⟩ := zeroRegion_split buf pos _ _ z1
              have hbB : pos + (buildCharSamples tone P s.toList).length
                  ≤ buf.length := by omega
              have hwres := writeElements_eq tone P s.toList buf pos hwf hbB z1a
              have hz1b := zeroRegion_overwrite_past buf pos
                (buildCharSamples tone P s.toList)
                (pos + (buildCharSamples tone P s.toList).length)
                P.charGapSamples hbB (by omega) z1b
              have hgapid : overwrite
                    (overwrite buf pos (buildCharSamples tone P s.toList))
                    (pos + (buildCharSamples tone P s.toList).length)
                    (silence P.charGapSamples)
                  = overwrite buf pos (buildCharSamples tone P s.toList) :=
                overwrite_silence_of_zeroRegion _ _ _ hz1b
              have hcomp := overwrite_overwrite buf pos
                (buildCharSamples tone P s.toList) (silence P.charGapSamples)
                (by simp only [length_silence]; omega)
              have hfull : overwrite buf pos (buildCharSamples tone P s.toList
                    ++ silence P.charGapSamples)
                  = overwrite buf pos (buildCharSamples tone P s.toList) := by
                rw [← hcomp, hgapid]
              have ihres := pass2_compose buf pos
                (buildCharSamples tone P s.toList ++ silence P.charGapSamples)
                (renderSegB tone P tb tlen
                  (i + (utf8Bytes (goToUpper c)).length) rest)
                (fun b p => genPass2B tone P tb tlen b p
                  (i + (utf8Bytes (goToUpper c)).length) rest)
                (fun b p hb hzz => ih b p _ hb hzz)
                (by simp only [List.length_append, length_silence]; omega)
                (by
                  simp only [List.length_append, length_silence]
                  exact z2)
              simp only [List.length_append, length_silence, hfull,
                ← Nat.add_assoc] at ihres
              simp only [genPass2B, if_neg hsp, hml, hwres, if_pos hng,
                List.length_append, length_silence, ← Nat.add_assoc]
              rw [ihres]
              simp
            · simp only [if_neg hng, List.append_nil] at h hz ⊢
              simp only [List.length_append] at h hz
              obtain ⟨z1, z2⟩ := zeroRegion_split buf pos _ _ hz
              have hbB : pos + (buildCharSamples tone P s.toList).length
                  ≤ buf.length := by omega
              have hwres := writeElements_eq tone P s.toList buf pos hwf hbB z1
              have ihres := pass2_compose buf pos
                (buildCharSamples tone P s.toList)
                (renderSegB tone P tb tlen
                  (i + (utf8Bytes (goToUpper c)).length) rest)
                (fun b p => genPass2B tone P tb tlen b p
                  (i + (utf8Bytes (goToUpper c)).length) rest)
                (fun b p hb hzz => ih b p _ hb hzz)
                (by omega) z2
              simp only [List.length_append, ← Nat.add_assoc] at ihres
              simp only [genPass2B, if_neg hsp, hml, hwres, if_neg hng,
                Nat.add_zero, List.length_append, ← Nat.add_assoc]
              rw [ihres]
              simp

/-- The byte-faithful pipeline equals its functional waveform description. -/
theorem generateMorseAudio2B_eq_render (tone : Int → Nat → Int)
    (text : List Char) (wpm freq : Int) :
    generateMorseAudio2B tone text wpm freq
      = (renderSegB (tone freq) (sampleCounts wpm) (textBytes text)
           (textBytes text).length 0 text,
         prePass2B (sampleCounts wpm) (textBytes text)
           (textBytes text).length 0 text) := by
  have htot : prePass2B (sampleCounts wpm) (textBytes text)
      (textBytes text).length 0 text
      = (renderSegB (tone freq) (sampleCounts wpm) (textBytes text)
          (textBytes text).length 0 text).length :=
    (length_renderSegB (tone freq) (sampleCounts wpm) (textBytes text)
      (textBytes text).length text 0).symm
  show (let P := sampleCounts wpm
        let tb := textBytes text
        let total := prePass2B P tb tb.length 0 text
        let r := genPass2B (tone freq) P tb tb.length
          (List.replicate total 0) 0 0 text
        (r.1, total)) = _
  simp only
  rw [htot]
  rw [genPass2B_eq (tone freq) (sampleCounts wpm) (textBytes text)
    (textBytes text).length text
    (List.replicate (renderSegB (tone freq) (sampleCounts wpm)
      (textBytes text) (textBytes text).length 0 text).length 0)
    0 0 (by simp) (zeroRegion_replicate _ _ (by omega))]
  simp only
  rw [overwrite_full _ _ (by simp)]

theorem renderSegB_append (tone : Nat → Int) (P : SampleCounts)
    (tb : List Nat) (tlen : Nat) :
    ∀ (xs ys : List Char) (i : Nat),
      renderSegB tone P tb tlen i (xs ++ ys)
        = renderSegB tone P tb tlen i xs
          ++ renderSegB tone P tb tlen (i + upperByteLen xs) ys := by
  intro xs
  induction xs with
  | nil => intro ys i; simp [renderSegB, upperByteLen]
  | cons c rest ih =>
      intro ys i
      simp only [List.cons_append, renderSegB, upperByteLen, List.append_eq,
        ih, List.append_assoc, ← Nat.add_assoc]

theorem utf8Bytes_ascii {c : Char} (h : c.toNat < 128) :
    utf8Bytes c = [c.toNat] := by
  simp [utf8Bytes, h]

theorem goToUpper_ascii {c : Char} (h : c.toNat < 128) :
    goToUpper c = c.toUpper := by
  simp [goToUpper, h]

theorem toNat_toUpper_lt_128 {c : Char} (h : c.toNat < 128) :
    c.toUpper.toNat < 128 := by
  rw [toNat_toUpper]
  split <;> omega

theorem textBytes_ascii :
    ∀ t : List Char, (∀ c ∈ t, c.toNat < 128) →
      textBytes t = t.map Char.toNat := by
  intro t
  induction t with
  | nil => intro _; rfl
  | cons c rest ih =>
      intro h
      have h2 := ih (fun x hx => h x (List.mem_cons_of_mem _ hx))
      simp only [textBytes, List.map_cons, List.flatten_cons] at h2 ⊢
      rw [utf8Bytes_ascii (h c (List.mem_cons_self c rest)), h2]
      rfl

theorem getD_map_toNat_append :
    ∀ (pre suf : List Char) (n : Nat),
      ((pre ++ suf).map Char.toNat).getD (pre.length + n) 0
        = (suf.map Char.toNat).getD n 0 := by
  intro pre
  induction pre with
  | nil => intro suf n; simp
  | cons p ps ih =>
      intro suf n
      show ((p :: (ps ++ suf)).map Char.toNat).getD (ps.length + 1 + n) 0 = _
      rw [show ps.length + 1 + n = (ps.length + n) + 1 by omega]
      simp only [List.map_cons, List.getD_cons_succ]
      exact ih suf n

theorem gapCondB_ascii (pre : List Char) (c : Char) (rest : List Char)
    (h : ∀ x ∈ pre ++ c :: rest, x.toNat < 128) :
    gapCondB (textBytes (pre ++ c :: rest))
        ((textBytes (pre ++ c :: rest)).length) pre.length
      = nextIsAudible rest := by
  rw [textBytes_ascii _ h]
  cases rest with
  | nil =>
      have h1 : ¬pre.length < ((pre ++ [c]).map Char.toNat).length - 1 := by
        simp
      simp [gapCondB, nextIsAudible, h1]
  | cons r rrest =>
      have h1 : pre.length < ((pre ++ c :: r :: rrest).map Char.toNat).length
          - 1 := by
        simp
      have h2 : ((pre ++ c :: r :: rrest).map Char.toNat).getD
          (pre.length + 1) 0 = r.toNat := by
        have := getD_map_toNat_append pre (c :: r :: rrest) 1
        simpa using this
      have h3 : (r.toNat != 32) = (r != ' ') := by
        by_cases hr : r = ' '
        · subst hr
          rfl
        · have hne : r.toNat ≠ 32 :=
            fun hh => hr (char_eq_of_toNat_eq (by rw [hh]; rfl))
          rw [bne_iff_ne.mpr hne, bne_iff_ne.mpr hr]
      simp only [gapCondB, h2, h3, nextIsAudible, decide_eq_true h1,
        Bool.true_and]

/-- On ASCII text the byte-faithful waveform description coincides with
the positional one: every rune is one byte, folding preserves byte
positions, and the byte-index gap test reduces to "the next rune is not a
space". -/
theorem renderSegB_eq_renderSeg (tone : Nat → Int) (P : SampleCounts) :
    ∀ (suf pre : List Char), (∀ x ∈ pre ++ suf, x.toNat < 128) →
      renderSegB tone P (textBytes (pre ++ suf))
          ((textBytes (pre ++ suf)).length) pre.length suf
        = renderSeg tone P suf none := by
  intro suf
  induction suf with
  | nil => intro pre _; rfl
  | cons c rest ih =>
      intro pre h
      have hc : c.toNat < 128 := h c (by simp)
      have hup : goToUpper c = c.toUpper := goToUpper_ascii hc
      have hadv : (utf8Bytes c.toUpper).length = 1 := by
        rw [utf8Bytes_ascii (toNat_toUpper_lt_128 hc)]
        rfl
      have hcond := gapCondB_ascii pre c rest h
      have hre : pre ++ c :: rest = (pre ++ [c]) ++ rest := by simp
      have ihres := ih (pre ++ [c]) (by rw [← hre]; exact h)
      rw [← hre] at ihres
      have hlen : (pre ++ [c]).length = pre.length + 1 := by simp
      rw [hlen] at ihres
      simp only [renderSegB, renderSeg, hup, hadv, hcond,
        nextIsAudibleO_none, ihres]

/-- On ASCII text the byte-faithful pipeline and the positional pipeline
agree. -/
theorem generateMorseAudio2B_ascii (tone : Int → Nat → Int)
    (text : List Char) (wpm freq : Int)
    (h : ∀ c ∈ text, c.toNat < 128) :
    generateMorseAudio2B tone text wpm freq
      = generateMorseAudio2 tone text wpm freq := by
  rw [generateMorseAudio2B_eq_render, generateMorseAudio2_eq_render]
  have hren := renderSegB_eq_renderSeg (tone freq) (sampleCounts wpm) text []
    (by simpa using h)
  simp only [List.nil_append, List.length_nil] at hren
  have htotB := length_renderSegB (tone freq) (sampleCounts wpm)
    (textBytes text) ((textBytes text).length) text 0
  rw [hren] at htotB
  have htotP := length_renderSeg_none (tone freq) (sampleCounts wpm) text
  rw [hren, ← htotB, htotP]

/-- C4 counterexample: synthesizing "aı" and its uppercase fold "AI"
yields different output (the sample counts already differ: 616 vs 484 at
WPM 1200).  Go folds ı (U+0131, 2 bytes) to I (1 byte), so the byte
offsets of the uppercased string fall behind the original string's byte
length and the trailing-gap test `i < len(text)-1 && text[i+1] != ' '`
fires for the final I of "aı" (it reads a continuation byte of ı) but not
for the final I of "AI". -/
theorem generateMorseAudio_fold_counterexample :
    generateMorseAudio2B (fun _ _ => 1) (("aı").toList) 1200 600
      ≠ generateMorseAudio2B (fun _ _ => 1)
          ((("aı").toList).map goToUpper) 1200 600 :=
  fun h => absurd (congrArg Prod.snd h) (by decide)

/-- C4 amended (the counterexample forces the ASCII restriction): for
text made of ASCII characters, synthesis is case-insensitive — the
byte-faithful pipeline returns identical output for the text and its
uppercase fold — and on such text the byte-faithful pipeline agrees with
the positional model; in particular "sos" and "SOS" synthesize
identically. -/
theorem generateMorseAudio_case_insensitive_ascii (tone : Int → Nat → Int)
    (text : List Char) (wpm freq : Int)
    (h : ∀ c ∈ text, c.toNat < 128) :
    generateMorseAudio2B tone (text.map goToUpper) wpm freq
        = generateMorseAudio2B tone text wpm freq
    ∧ generateMorseAudio2B tone text wpm freq
        = generateMorseAudio2 tone text wpm freq
    ∧ generateMorseAudio2B tone (("sos").toList) wpm freq
        = generateMorseAudio2B tone (("SOS").toList) wpm freq := by
  have key : ∀ t : List Char, (∀ c ∈ t, c.toNat < 128) →
      generateMorseAudio2B tone (t.map goToUpper) wpm freq
        = generateMorseAudio2B tone t wpm freq := by
    intro t ht
    have hmap : t.map goToUpper = t.map Char.toUpper :=
      List.map_congr_left (fun a ha => goToUpper_ascii (ht a ha))
    have hascii2 : ∀ c ∈ t.map Char.toUpper, c.toNat < 128 := by
      intro c hc
      obtain ⟨a, ha, rfl⟩ := List.mem_map.mp hc
      exact toNat_toUpper_lt_128 (ht a ha)
    rw [hmap, generateMorseAudio2B_ascii tone _ wpm freq hascii2,
      generateMorseAudio2B_ascii tone t wpm freq ht,
      generateMorseAudio2_eq_render, generateMorseAudio2_eq_render,
      renderSeg_map_toUpper, prePass2_map_toUpper]
  refine ⟨key text h, generateMorseAudio2B_ascii tone text wpm freq h, ?_⟩
  have hsos := key (("sos").toList) (by decide)
  rw [show (("sos").toList).map goToUpper = ("SOS").toList by decide] at hsos
  exact hsos.symm

/-- Witness for the amended C4 at text "sos", WPM 20, frequency 600,
constant amplitude 1. -/
theorem generateMorseAudio_case_insensitive_ascii_witness :
    (∀ c ∈ ("sos").toList, c.toNat < 128)
    ∧ (generateMorseAudio2B (fun _ _ => 1)
          ((("sos").toList).map goToUpper) 20 600
        = generateMorseAudio2B (fun _ _ => 1) (("sos").toList) 20 600
      ∧ generateMorseAudio2B (fun _ _ => 1) (("sos").toList) 20 600
        = generateMorseAudio2 (fun _ _ => 1) (("sos").toList) 20 600
      ∧ generateMorseAudio2B (fun _ _ => 1) (("sos").toList) 20 600
        = generateMorseAudio2B (fun _ _ => 1) (("SOS").toList) 20 600) :=
  ⟨by decide, generateMorseAudio_case_insensitive_ascii (fun _ _ => 1)
    (("sos").toList) 20 600 (by decide)⟩

set_option maxRecDepth 8192 in
/-- C5 counterexample: in "ɐee" the first supported character 'e' is not
the last character and the next character is a non-space 'e', yet no
character gap is emitted.  The unknown ɐ uppercases to the 3-byte Ɐ, so
the byte offset of the first E in the uppercased string is 3 while
len("ɐee") - 1 = 3, and the byte-index test fails.  At WPM 1200
(dot = 44 samples, character gap = 132) the whole output is the two dot
waves back to back: 88 samples of constant amplitude 1 with no zero run
between them.  The last conjunct shows the unknown character also
perturbs the remainder: "ee" alone synthesizes 220 samples, not 88. -/
theorem unknown_char_gap_counterexample :
    generateMorseAudio2B (fun _ _ => 1) (("ɐee").toList) 1200 600
        = (List.replicate 88 1, 88)
    ∧ (sampleCounts 1200).charGapSamples = 132
    ∧ morseLookup (goToUpper 'ɐ') = none
    ∧ morseLookup (goToUpper 'e') = some (("." : String))
    ∧ (generateMorseAudio2B (fun _ _ => 1) (("ee").toList) 1200 600).2
        = 220 := by
  refine ⟨by decide, by decide, by decide, by decide, by decide⟩

/-- C5 amended (the counterexample forces the ASCII restriction): for
ASCII text, an unknown character contributes zero samples and no gap of
its own — the output with it equals the corresponding output without
it — and a preceding supported character still receives its trailing
character gap whenever a further character follows and is not a space,
including when that next character is unknown. -/
theorem unknown_char_contribution_ascii (tone : Int → Nat → Int)
    (pre : List Char) (k c : Char) (rest : List Char) (s : String)
    (wpm freq : Int)
    (hpre : ∀ x ∈ pre, x.toNat < 128) (hka : k.toNat < 128)
    (hca : c.toNat < 128) (hrest : ∀ x ∈ rest, x.toNat < 128)
    (hk : morseLookup k.toUpper = some s)
    (hc : morseLookup c.toUpper = none)
    (hcs : c ≠ ' ') :
    ((generateMorseAudio2B tone (pre ++ c :: rest) wpm freq).1
        = renderSeg (tone freq) (sampleCounts wpm) pre (some c)
          ++ (generateMorseAudio2B tone rest wpm freq).1)
    ∧ ((generateMorseAudio2B tone (pre ++ k :: c :: rest) wpm freq).1
        = renderSeg (tone freq) (sampleCounts wpm) pre (some k)
          ++ buildCharSamples (tone freq) (sampleCounts wpm) s.toList
          ++ silence (sampleCounts wpm).charGapSamples
          ++ (generateMorseAudio2B tone rest wpm freq).1) := by
  have hA1 : ∀ x ∈ pre ++ c :: rest, x.toNat < 128 := by
    intro x hx
    rcases List.mem_append.mp hx with hx | hx
    · exact hpre x hx
    · rcases List.mem_cons.mp hx with rfl | hx
      · exact hca
      · exact hrest x hx
  have hA2 : ∀ x ∈ pre ++ k :: c :: rest, x.toNat < 128 := by
    intro x hx
    rcases List.mem_append.mp hx with hx | hx
    · exact hpre x hx
    · rcases List.mem_cons.mp hx with rfl | hx
      · exact hka
      · rcases List.mem_cons.mp hx with rfl | hx
        · exact hca
        · exact hrest x hx
  rw [generateMorseAudio2B_ascii tone (pre ++ c :: rest) wpm freq hA1,
    generateMorseAudio2B_ascii tone (pre ++ k :: c :: rest) wpm freq hA2,
    generateMorseAudio2B_ascii tone rest wpm freq hrest]
  have hcup : ¬c.toUpper = ' ' := fun hh => hcs ((toUpper_eq_space_iff c).mp hh)
  have hkup : ¬k.toUpper = ' ' := by
    intro hh
    rw [hh] at hk
    rw [show morseLookup ' ' = none by decide] at hk
    exact Option.noConfusion hk
  have hcskip : renderSeg (tone freq) (sampleCounts wpm) (c :: rest) none
      = renderSeg (tone freq) (sampleCounts wpm) rest none := by
    simp [renderSeg, hc, hcup]
  have haud : nextIsAudibleO (c :: rest) none = true := by
    show (c != ' ') = true
    exact bne_iff_ne.mpr hcs
  constructor
  · rw [generateMorseAudio2_eq_render, generateMorseAudio2_eq_render]
    show renderSeg (tone freq) (sampleCounts wpm) (pre ++ c :: rest) none = _
    rw [renderSeg_append]
    simp only [lookAheadChar]
    rw [hcskip]
  · rw [generateMorseAudio2_eq_render, generateMorseAudio2_eq_render]
    show renderSeg (tone freq) (sampleCounts wpm) (pre ++ k :: c :: rest) none
        = _
    rw [renderSeg_append]
    simp only [lookAheadChar]
    rw [show renderSeg (tone freq) (sampleCounts wpm) (k :: c :: rest) none
        = buildCharSamples (tone freq) (sampleCounts wpm) s.toList
          ++ silence (sampleCounts wpm).charGapSamples
          ++ renderSeg (tone freq) (sampleCounts wpm) (c :: rest) none by
      simp [renderSeg, hk, hkup, haud, List.append_assoc]]
    rw [hcskip]
    simp [List.append_assoc]

/-- Witness for the amended C5: text "e!t" (and "es!t" for the gap
conjunct) at WPM 20, frequency 600, constant amplitude 1. -/
theorem unknown_char_contribution_ascii_witness :
    (∀ x ∈ (['e'] : List Char), x.toNat < 128)
    ∧ ('s').toNat < 128
    ∧ ('!').toNat < 128
    ∧ (∀ x ∈ (['t'] : List Char), x.toNat < 128)
    ∧ morseLookup ('s').toUpper = some (("..." : String))
    ∧ morseLookup ('!').toUpper = none
    ∧ ('!') ≠ (' ')
    ∧ (((generateMorseAudio2B (fun _ _ => 1) (['e'] ++ '!' :: ['t']) 20 600).1
        = renderSeg ((fun (_ : Int) (_ : Nat) => (1 : Int)) 600)
            (sampleCounts 20) ['e'] (some '!')
          ++ (generateMorseAudio2B (fun _ _ => 1) ['t'] 20 600).1)
      ∧ ((generateMorseAudio2B (fun _ _ => 1)
            (['e'] ++ 's' :: '!' :: ['t']) 20 600).1
        = renderSeg ((fun (_ : Int) (_ : Nat) => (1 : Int)) 600)
            (sampleCounts 20) ['e'] (some 's')
          ++ buildCharSamples ((fun (_ : Int) (_ : Nat) => (1 : Int)) 600)
              (sampleCounts 20) (("..." : String)).toList
          ++ silence (sampleCounts 20).charGapSamples
          ++ (generateMorseAudio2B (fun _ _ => 1) ['t'] 20 600).1)) :=
  ⟨by decide, by decide, by decide, by decide, by decide, by decide,
   by decide,
   unknown_char_contribution_ascii (fun _ _ => 1) ['e'] 's' '!' ['t']
     ("..." : String) 20 600 (by decide) (by decide) (by decide) (by decide)
     (by decide) (by decide) (by decide)⟩

/-- C6: every space contributes exactly one word-gap-length run of zeros
and is never followed by a character gap: around any space the output
splits as (whatever the fragment before the space renders) ++ word-gap
silence ++ (whatever the fragment after it renders), with nothing else
attached to the space's own step — the space branch of the loop skips the
trailing-gap logic entirely.  In particular the single-space input
produces exactly one word-gap-length all-zero buffer and its count.
(The fragment before the space may itself end in a character gap — the
byte-index test of the preceding character can fire even when the next
rune is a space — but that gap is emitted by the preceding character's
step, not the space's.) -/
theorem space_contribution_bytes (tone : Int → Nat → Int)
    (pre rest : List Char) (wpm freq : Int) :
    (generateMorseAudio2B tone (pre ++ ' ' :: rest) wpm freq).1
        = renderSegB (tone freq) (sampleCounts wpm)
            (textBytes (pre ++ ' ' :: rest))
            ((textBytes (pre ++ ' ' :: rest)).length) 0 pre
          ++ silence (sampleCounts wpm).wordGapSamples
          ++ renderSegB (tone freq) (sampleCounts wpm)
            (textBytes (pre ++ ' ' :: rest))
            ((textBytes (pre ++ ' ' :: rest)).length)
            (upperByteLen pre + 1) rest
    ∧ generateMorseAudio2B tone [' '] wpm freq
        = (List.replicate (sampleCounts wpm).wordGapSamples 0,
           (sampleCounts wpm).wordGapSamples) := by
  have hsp : goToUpper ' ' = ' ' := by decide
  have hlen1 : (utf8Bytes (goToUpper ' ')).length = 1 := by decide
  constructor
  · rw [generateMorseAudio2B_eq_render]
    show renderSegB (tone freq) (sampleCounts wpm)
        (textBytes (pre ++ ' ' :: rest))
        ((textBytes (pre ++ ' ' :: rest)).length) 0 (pre ++ ' ' :: rest) = _
    rw [renderSegB_append, Nat.zero_add]
    rw [show renderSegB (tone freq) (sampleCounts wpm)
          (textBytes (pre ++ ' ' :: rest))
          ((textBytes (pre ++ ' ' :: rest)).length)
          (upperByteLen pre) (' ' :: rest)
        = silence (sampleCounts wpm).wordGapSamples
          ++ renderSegB (tone freq) (sampleCounts wpm)
            (textBytes (pre ++ ' ' :: rest))
            ((textBytes (pre ++ ' ' :: rest)).length)
            (upperByteLen pre + 1) rest by
      simp [renderSegB, hsp, hlen1,
        (show (utf8Bytes ' ').length = 1 by decide)]]
    rw [← List.append_assoc]
  · rw [generateMorseAudio2B_eq_render]
    simp [renderSegB, prePass2B, hsp, silence]
